import Mathlib

/-!
Shallow embedding of the redaction engine of `redaaction.py`
(classes `UltraPrecisionRedactor` and `PIIDetector`), together with
proofs about its match-resolution, merge and masking behaviour.

Python strings are modelled as `List Char`, Python floats as `ℚ`,
and `fitz.Rect` as a four-field rational rectangle with the library's
documented `width` / `height` / `intersects` / `include_rect` semantics.
-/

/-- Python `str.lower()` restricted to ASCII, applied characterwise. -/
def lowerStr (s : List Char) : List Char := s.map Char.toLower

/-- Python whitespace characters (ASCII subset used by `strip` / `split`). -/
def isPySpace (c : Char) : Bool :=
  c = ' ' || c = '\t' || c = '\n' || c = '\r' || c = '\x0b' || c = '\x0c'

/-- Python `str.strip()`: drop whitespace from both ends. -/
def stripStr (s : List Char) : List Char :=
  ((s.dropWhile isPySpace).reverse.dropWhile isPySpace).reverse

/-- Helper for `splitWS`: `cur` is the reversed chunk currently being read. -/
def splitWSGo : List Char → List Char → List (List Char)
  | [], cur => if cur = [] then [] else [cur.reverse]
  | c :: rest, cur =>
      if isPySpace c then
        if cur = [] then splitWSGo rest []
        else cur.reverse :: splitWSGo rest []
      else splitWSGo rest (c :: cur)

/-- Python `str.split()` with no argument: split on whitespace runs,
dropping empty chunks. -/
def splitWS (s : List Char) : List (List Char) := splitWSGo s []

/-- Python `' '.join(xs)`. -/
def joinSpace (xs : List (List Char)) : List Char := List.intercalate [' '] xs

/-- Boolean prefix test on character lists. -/
def isPrefixL : List Char → List Char → Bool
  | [], _ => true
  | _ :: _, [] => false
  | a :: as, b :: bs => a = b && isPrefixL as bs

/-- Helper for `findSub`, carrying the current index. -/
def findSubAux (pat : List Char) : List Char → Nat → Option Nat
  | hay, i =>
    if isPrefixL pat hay then some i
    else
      match hay with
      | [] => none
      | _ :: t => findSubAux pat t (i + 1)

/-- Python `hay.find(pat)` returning `some` of the first index at which
`pat` occurs in `hay`, `none` when absent. -/
def findSub (hay pat : List Char) : Option Nat := findSubAux pat hay 0

/-- A word tuple as returned by `page.get_text("words")`:
`(x0, y0, x1, y1, text, block_no, line_no, word_no)`. -/
structure Word where
  x0 : ℚ
  y0 : ℚ
  x1 : ℚ
  y1 : ℚ
  text : List Char
  block : Nat
  line : Nat
  pos : Nat
deriving DecidableEq

/-- `fitz.Rect`: the constructor performs no normalisation. -/
structure Rect where
  x0 : ℚ
  y0 : ℚ
  x1 : ℚ
  y1 : ℚ
deriving DecidableEq

namespace Rect

/-- `fitz.Rect.width`: `max(x1 - x0, 0)`. -/
def width (r : Rect) : ℚ := max (r.x1 - r.x0) 0

/-- `fitz.Rect.height`: `max(y1 - y0, 0)`. -/
def height (r : Rect) : ℚ := max (r.y1 - r.y0) 0

/-- `fitz.Rect.is_empty`: true when the rectangle has no interior. -/
def isEmptyR (r : Rect) : Bool := r.x1 ≤ r.x0 || r.y1 ≤ r.y0

/-- `fitz.Rect.intersects`: the two rectangles share a non-empty
common rectangle (finite rects only; no rect here is infinite). -/
def intersects (a b : Rect) : Bool :=
  !a.isEmptyR && !b.isEmptyR &&
    decide (max a.x0 b.x0 < min a.x1 b.x1) &&
    decide (max a.y0 b.y0 < min a.y1 b.y1)

/-- `fitz.Rect.include_rect` on finite non-empty rectangles: extend to the
smallest rectangle containing both. -/
def includeRect (a b : Rect) : Rect :=
  ⟨min a.x0 b.x0, min a.y0 b.y0, max a.x1 b.x1, max a.y1 b.y1⟩

/-- The set of points of a rectangle (its closed point set). -/
def toSet (r : Rect) : Set (ℚ × ℚ) :=
  {p | r.x0 ≤ p.1 ∧ p.1 ≤ r.x1 ∧ r.y0 ≤ p.2 ∧ p.2 ≤ r.y1}

/-- `m` covers `r` coordinatewise. -/
def covers (m r : Rect) : Prop :=
  m.x0 ≤ r.x0 ∧ m.y0 ≤ r.y0 ∧ r.x1 ≤ m.x1 ∧ r.y1 ≤ m.y1

end Rect

/-- Bounding rectangle of a word tuple. -/
def wordRect (w : Word) : Rect := ⟨w.x0, w.y0, w.x1, w.y1⟩

/-- A match record `{rect, text}` built by `find_ultra_precise_matches`. -/
structure MatchItem where
  rect : Rect
  text : List Char
deriving DecidableEq

/-! ## MatchResolver: `UltraPrecisionRedactor.get_word_level_boundaries` -/

/-- Method 1 of `get_word_level_boundaries`: one rect per word whose
lowercased text equals the lowercased target. -/
def exactRects (words : List Word) (target : List Char) : List Rect :=
  words.filterMap fun w =>
    if lowerStr w.text = lowerStr target then some (wordRect w) else none

/-- The uniform character width `word_width / len(word_text)` both
interpolating methods use (`word_width` itself for an empty word text). -/
def charWidthOf (w : Word) : ℚ :=
  if w.text.length > 0 then (w.x1 - w.x0) / w.text.length else w.x1 - w.x0

/-- Method 2: the rect computed for a word containing the target as a
substring, by linear interpolation at uniform character width. -/
def substrRect (w : Word) (target : List Char) (startPos : Nat) : Rect :=
  ⟨w.x0 + startPos * charWidthOf w, w.y0,
   w.x0 + startPos * charWidthOf w + target.length * charWidthOf w, w.y1⟩

/-- Method 2 of `get_word_level_boundaries`: one rect per word whose
lowercased text contains the lowercased target as a substring. -/
def substrRects (words : List Word) (target : List Char) : List Rect :=
  words.filterMap fun w =>
    match findSub (lowerStr w.text) (lowerStr target) with
    | some startPos => some (substrRect w target startPos)
    | none => none

/-- The combined rectangle built by method 3 from the first and last word
of a matching window: left edge of the first word, right edge of the last,
min of the top edges, max of the bottom edges. -/
def combinedRect (fw lw : Word) : Rect :=
  ⟨fw.x0, min fw.y0 lw.y0, lw.x1, max fw.y1 lw.y1⟩

/-- The lowercased word texts collected for window start `i`
(the inner `for j in range(len(text_parts))` loop with its bound check). -/
def windowTexts (words : List Word) (n i : Nat) : List (List Char) :=
  (List.range n).filterMap fun j => (words[i + j]?).map fun w => lowerStr w.text

/-- The window start indices tried by method 3: Python
`range(len(words) - len(text_parts) + 1)`, empty when the page has
fewer words than the target has tokens. -/
def windowStarts (words : List Word) (n : Nat) : List Nat :=
  if n ≤ words.length then List.range (words.length - n + 1) else []

/-- Method 3 of `get_word_level_boundaries`: slide a window of
`len(text_parts)` consecutive words and emit a combined rect for every
window whose lowercased texts joined by a single space equal the
lowercased target. -/
def multiRects (words : List Word) (target : List Char) : List Rect :=
  let textParts := splitWS target
  if textParts.length > 1 then
    (windowStarts words textParts.length).filterMap fun i =>
      match words[i]?, words[i + textParts.length - 1]? with
      | some fw, some lw =>
          if joinSpace (windowTexts words textParts.length i) = lowerStr target then
            some (combinedRect fw lw)
          else none
      | _, _ => none
  else []

/-- `UltraPrecisionRedactor.get_word_level_boundaries`: try exact word
equality, then substring-within-word, then multi-word windows; the first
method that produces any rect wins. -/
def get_word_level_boundaries (words : List Word) (target : List Char) : List Rect :=
  if exactRects words target ≠ [] then exactRects words target
  else if substrRects words target ≠ [] then substrRects words target
  else multiRects words target

/-! ## MatchResolver: `UltraPrecisionRedactor.get_character_level_boundaries` -/

/-- The rect of the character at index `i` of word `w`, at uniform
character width. -/
def charRect (w : Word) (i : Nat) : Rect :=
  ⟨w.x0 + i * charWidthOf w, w.y0, w.x0 + i * charWidthOf w + charWidthOf w, w.y1⟩

/-- Per-word inner loop of `get_character_level_boundaries`
(`for i, char in enumerate(word_text)`): one rect per character of the
word equal (case-insensitively) to the target. -/
def charRectsInWord (w : Word) (targetChar : Char) : List Rect :=
  (List.range w.text.length).filterMap fun i =>
    if (w.text.getD i default).toLower = targetChar.toLower
    then some (charRect w i) else none

/-- `UltraPrecisionRedactor.get_character_level_boundaries`: scan every
character of every word; the `match_start` / `match_end` parameters are
accepted but never read. -/
def get_character_level_boundaries (words : List Word) (targetChar : Char)
    (_matchStart _matchEnd : Nat) : List Rect :=
  words.flatMap fun w => charRectsInWord w targetChar

/-! ## Regex fragment and `find_ultra_precise_matches` -/

/-- The regex fragment needed here: a character class `[lo-hi]` repeated
exactly `n` times, e.g. `[A-Z]{5}`. -/
inductive RX where
  | clsRep (lo hi : Char) (n : Nat)
deriving DecidableEq

/-- The two flags `find_ultra_precise_matches` passes to `re.finditer`. -/
structure ReFlags where
  ignoreCase : Bool
  multiline : Bool
deriving DecidableEq

/-- Membership of a character in a class `[lo-hi]`, honouring
`re.IGNORECASE` by case folding as CPython does. -/
def classMatches (flags : ReFlags) (lo hi c : Char) : Bool :=
  (decide (lo ≤ c) && decide (c ≤ hi)) ||
    (flags.ignoreCase &&
      ((decide (lo ≤ c.toUpper) && decide (c.toUpper ≤ hi)) ||
       (decide (lo ≤ c.toLower) && decide (c.toLower ≤ hi))))

/-- Try to match `n` class characters at the front of `s`; return the
consumed characters on success. -/
def matchFront (flags : ReFlags) (lo hi : Char) : Nat → List Char → Option (List Char)
  | 0, _ => some []
  | _ + 1, [] => none
  | n + 1, c :: rest =>
      if classMatches flags lo hi c then
        (matchFront flags lo hi n rest).map fun tk => c :: tk
      else none

/-- Scanning loop of `re.finditer`: leftmost, non-overlapping matches,
each reported as `(start, end, matched-substring)`. -/
def finditerAux (flags : ReFlags) (lo hi : Char) (n : Nat) :
    Nat → List Char → Nat → List (Nat × Nat × List Char)
  | 0, _, _ => []
  | fuel + 1, s, pos =>
    match matchFront flags lo hi n s with
    | some tk =>
        (pos, pos + n, tk) ::
          finditerAux flags lo hi n fuel (s.drop (max n 1)) (pos + max n 1)
    | none =>
      match s with
      | [] => []
      | _ :: t => finditerAux flags lo hi n fuel t (pos + 1)

/-- `re.finditer(pattern, text, flags)` for the embedded fragment. -/
def pyFinditer (pat : RX) (flags : ReFlags) (text : List Char) :
    List (Nat × Nat × List Char) :=
  match pat with
  | .clsRep lo hi n => finditerAux flags lo hi n (text.length + 1) text 0

/-- `UltraPrecisionRedactor.find_ultra_precise_matches`: run the regex
over the page text with `re.MULTILINE | re.IGNORECASE` hard-coded,
then resolve each stripped match to rects — character level when the
stripped match has length 1, word level otherwise. -/
def find_ultra_precise_matches (words : List Word) (fullText : List Char)
    (pat : RX) : List MatchItem :=
  (pyFinditer pat ⟨true, true⟩ fullText).flatMap fun m =>
    let matchedText := stripStr m.2.2
    match matchedText with
    | [] => []
    | c :: rest =>
        if rest = [] then
          (get_character_level_boundaries words c m.1 m.2.1).map
            fun r => ⟨r, matchedText⟩
        else
          (get_word_level_boundaries words matchedText).map
            fun r => ⟨r, matchedText⟩

/-! ## RedactionMerger: `UltraPrecisionRedactor.apply_ultra_precise_redaction` -/

/-- Stable insertion of `x` into `l`, placing `x` after every element it is
not strictly below: together with `pySortBy` this computes the unique
stable ascending ordering, the one Python's `sorted` produces. -/
def insertStable (lt : α → α → Bool) (x : α) : List α → List α
  | [] => [x]
  | y :: ys => if lt x y then x :: y :: ys else y :: insertStable lt x ys

/-- Stable sort by a strict comparison, matching Python's `sorted`. -/
def pySortBy (lt : α → α → Bool) (l : List α) : List α :=
  l.foldl (fun acc x => insertStable lt x acc) []

/-- Strict lexicographic comparison on `(y0, x0)`, the key
`sorted(redactions, key=lambda r: (r.y0, r.x0))` sorts by. -/
def rectKeyLt (a b : Rect) : Bool :=
  decide (a.y0 < b.y0) || (decide (a.y0 = b.y0) && decide (a.x0 < b.x0))

/-- The minimal-size filter of the collection loop:
`rect.width > 0.1 and rect.height > 0.1`. -/
def passesThreshold (r : Rect) : Bool :=
  decide (r.width > 1/10) && decide (r.height > 1/10)

/-- Symmetric padding by 2 units on all four sides. -/
def padRect (r : Rect) : Rect := ⟨r.x0 - 2, r.y0 - 2, r.x1 + 2, r.y1 + 2⟩

/-- The collection loop of `apply_ultra_precise_redaction`: keep the rects
above the minimal size, pad each, and count them. -/
def collectRedactions (matchRects : List Rect) : List Rect × Nat :=
  matchRects.foldl
    (fun acc r =>
      if passesThreshold r then (acc.1 ++ [padRect r], acc.2 + 1) else acc)
    ([], 0)

/-- Replace the first region of the list intersecting `r` by its union
with `r`; `none` when no region intersects. -/
def absorbFirst (r : Rect) : List Rect → Option (List Rect)
  | [] => none
  | m :: ms =>
      if m.intersects r then some (m.includeRect r :: ms)
      else (absorbFirst r ms).map fun rest => m :: rest

/-- One step of the first-fit greedy merge: absorb `r` into the first
intersecting region, or append it as a new region. -/
def mergeStep (regions : List Rect) (r : Rect) : List Rect :=
  match absorbFirst r regions with
  | some merged => merged
  | none => regions ++ [r]

/-- The merge loop of `apply_ultra_precise_redaction`: sort the padded
rects by `(y0, x0)` and fold them into merged regions first-fit. -/
def mergeAll (rects : List Rect) : List Rect :=
  (pySortBy rectKeyLt rects).foldl mergeStep []

/-- The merged regions `apply_ultra_precise_redaction` applies to the
page for a given list of match rects. -/
def mergedRedactions (matchRects : List Rect) : List Rect :=
  mergeAll (collectRedactions matchRects).1

/-- The value `apply_ultra_precise_redaction` returns: `redaction_count`,
incremented once per match rect surviving the minimal-size filter. -/
def apply_ultra_precise_redaction (matchRects : List Rect) : Nat :=
  (collectRedactions matchRects).2

/-! ## PIIDetector: `detect_entities` and `mask_entities` -/

/-- An entity record `{entity, start, end, text, score}`. -/
structure PyEntity where
  entity : List Char
  start : Nat
  stop : Nat
  text : List Char
  score : ℚ
deriving DecidableEq

/-- `PIIDetector.is_available`: simply reports the module-level
`DEPENDENCIES_LOADED` flag. -/
def is_available (dependenciesLoaded : Bool) : Bool := dependenciesLoaded

/-- `PIIDetector.detect_entities`. The NLP model is the black-box
collaborator: an optional function from text to entity records
(`none` models `self.current_model` being unset). With no model the
method shows an error dialog and returns the empty list; with empty
(stripped) text it returns the empty list; otherwise it runs the model
and, when `selected_types` is a non-empty list, keeps only entities of a
selected type whose score reaches the threshold. -/
def detect_entities (currentModel : Option (List Char → List PyEntity))
    (threshold : ℚ) (text : List Char) (selectedTypes : List (List Char)) :
    List PyEntity :=
  match currentModel with
  | none => []
  | some model =>
      if stripStr text = [] then []
      else
        let entities := model text
        if selectedTypes ≠ [] then
          entities.filter fun e =>
            decide (e.entity ∈ selectedTypes) && decide (threshold ≤ e.score)
        else entities

/-- The masking styles of `mask_entities`; `otherStyle` stands for any
unrecognised style string (the `else` branch). -/
inductive Style where
  | typeLabel
  | fullMask
  | partMask
  | otherStyle
deriving DecidableEq

/-- The replacement text built for one entity: `<TYPE>` for the type-label
style, stars for the full mask, first and last character kept for the
partial mask of a long entity, `****` otherwise. -/
def maskFor (style : Style) (entityType entityText : List Char) : List Char :=
  match style with
  | .typeLabel => '<' :: entityType ++ ['>']
  | .fullMask => List.replicate entityText.length '*'
  | .partMask =>
      if entityText.length > 4 then
        entityText.take 1 ++ List.replicate (entityText.length - 2) '*' ++
          entityText.drop (entityText.length - 1)
      else List.replicate entityText.length '*'
  | .otherStyle => ['*', '*', '*', '*']

/-- The first loop of `mask_entities`: validate each entity's indices
against the text and record `(start, end, mask_text)`; invalid entities
are skipped. -/
def buildMasks (text : List Char) (entities : List PyEntity) (style : Style) :
    List (Nat × Nat × List Char) :=
  entities.filterMap fun e =>
    if e.start < text.length ∧ 0 < e.stop ∧ e.stop ≤ text.length ∧ e.start < e.stop
    then some (e.start, e.stop,
      maskFor style e.entity ((text.drop e.start).take (e.stop - e.start)))
    else none

/-- One application `masked_text[:start] + mask_text + masked_text[end:]`. -/
def spliceMask (acc : List Char) (m : Nat × Nat × List Char) : List Char :=
  acc.take m.1 ++ m.2.2 ++ acc.drop m.2.1

/-- `PIIDetector.mask_entities`: collect the masks, sort them by start
position in reverse order (Python's stable `sort` with `reverse=True`),
and splice each into the text. -/
def mask_entities (text : List Char) (entities : List PyEntity)
    (style : Style) : List Char :=
  if entities = [] then text
  else
    let masks := buildMasks text entities style
    if masks = [] then text
    else (pySortBy (fun a b => decide (b.1 < a.1)) masks).foldl spliceMask text

/-! ## Generic list lemmas -/

theorem filterMap_ite_eq_filter_map {α β : Type} (p : α → Prop) [DecidablePred p]
    (f : α → β) (l : List α) :
    (l.filterMap fun a => if p a then some (f a) else none)
      = (l.filter fun a => decide (p a)).map f := by
  induction l with
  | nil => rfl
  | cons a l ih =>
      by_cases h : p a <;>
        simp [List.filterMap_cons, List.filter_cons, h, ih]

theorem length_filter_range_getD {α : Type} (d : α) (q : α → Bool) (l : List α) :
    ((List.range l.length).filter fun i => q (l.getD i d)).length = l.countP q := by
  induction l with
  | nil => simp
  | cons a l ih =>
      have hmap : (List.map Nat.succ (List.range l.length)).filter
          (fun i => q ((a :: l).getD i d))
          = ((List.range l.length).filter fun i => q (l.getD i d)).map Nat.succ := by
        rw [List.filter_map]
        rfl
      rw [List.length_cons, List.range_succ_eq_map, List.filter_cons, hmap,
        List.countP_cons]
      have h0 : (a :: l).getD 0 d = a := rfl
      rw [h0]
      cases hqa : q a
      · rw [if_neg (by simp), List.length_map, ih]
        simp
      · rw [if_pos rfl, List.length_cons, List.length_map, ih]
        simp

/-! ## Claim C1: exact word equality short-circuits -/

/-- Claim C1: for a target of length at least 2, when some word's text
equals the target case-insensitively, `get_word_level_boundaries` returns
exactly the bounding rects of all such words (one per occurrence, in
order) and nothing from the substring or multi-word methods. -/
theorem c1_exact_word_short_circuit (words : List Word) (target : List Char)
    (hlen : 2 ≤ target.length)
    (hex : ∃ w ∈ words, lowerStr w.text = lowerStr target) :
    get_word_level_boundaries words target
        = (words.filter fun w => decide (lowerStr w.text = lowerStr target)).map
            wordRect ∧
    get_word_level_boundaries words target = exactRects words target := by
  have hch : exactRects words target
      = (words.filter fun w => decide (lowerStr w.text = lowerStr target)).map
          wordRect :=
    filterMap_ite_eq_filter_map _ _ _
  have hne : exactRects words target ≠ [] := by
    obtain ⟨w, hw, heq⟩ := hex
    have hmem : wordRect w ∈ exactRects words target :=
      List.mem_filterMap.mpr ⟨w, hw, by simp [heq]⟩
    intro h
    rw [h] at hmem
    exact (List.not_mem_nil _) hmem
  have hgw : get_word_level_boundaries words target = exactRects words target := by
    unfold get_word_level_boundaries
    rw [if_pos hne]
  exact ⟨hgw.trans hch, hgw⟩

def c1w1 : Word := ⟨0, 0, 4, 2, ['a', 'b'], 0, 0, 0⟩
def c1w2 : Word := ⟨6, 0, 9, 2, ['c'], 0, 0, 1⟩
def c1w3 : Word := ⟨0, 4, 4, 6, ['A', 'B'], 0, 1, 0⟩

/-- Witness for C1 at a concrete page: both case-insensitive occurrences
of the target word are returned. -/
theorem c1_exact_word_short_circuit_witness :
    get_word_level_boundaries [c1w1, c1w2, c1w3] ['A', 'b']
        = ([c1w1, c1w2, c1w3].filter fun w =>
            decide (lowerStr w.text = lowerStr ['A', 'b'])).map wordRect ∧
    get_word_level_boundaries [c1w1, c1w2, c1w3] ['A', 'b']
        = exactRects [c1w1, c1w2, c1w3] ['A', 'b'] :=
  c1_exact_word_short_circuit [c1w1, c1w2, c1w3] ['A', 'b'] (by decide)
    ⟨c1w1, by decide, by decide⟩

/-! ## Claim C3: single-character resolution scans the whole page -/

/-- Claim C3: `get_character_level_boundaries` ignores the regex match
offsets entirely, returns one rect per case-insensitive occurrence of the
character anywhere on the page (its count is the total occurrence count),
and each rect spans one uniform character width at `x0 + index * width`
with the word's full vertical extent. -/
theorem c3_char_level_scans_whole_page (words : List Word) (c : Char)
    (ms me ms2 me2 : Nat) :
    get_character_level_boundaries words c ms me
        = get_character_level_boundaries words c ms2 me2 ∧
    get_character_level_boundaries words c ms me
        = words.flatMap (fun w =>
            (((List.range w.text.length).filter fun i =>
              decide ((w.text.getD i default).toLower = c.toLower)).map
                (charRect w))) ∧
    (get_character_level_boundaries words c ms me).length
        = (words.map fun w =>
            w.text.countP fun ch => decide (ch.toLower = c.toLower)).sum ∧
    (∀ w i, (charRect w i).x1 - (charRect w i).x0 = charWidthOf w ∧
        (charRect w i).x0 = w.x0 + i * charWidthOf w ∧
        (charRect w i).y0 = w.y0 ∧ (charRect w i).y1 = w.y1) := by
  have hch : ∀ w : Word, charRectsInWord w c
      = ((List.range w.text.length).filter fun i =>
          decide ((w.text.getD i default).toLower = c.toLower)).map (charRect w) :=
    fun w => filterMap_ite_eq_filter_map _ _ _
  refine ⟨rfl, ?_, ?_, ?_⟩
  · unfold get_character_level_boundaries
    exact List.flatMap_congr fun w _ => hch w
  · unfold get_character_level_boundaries
    rw [List.length_flatMap]
    congr 1
    apply List.map_congr_left
    intro w _
    simp only [Function.comp_apply, hch w, List.length_map]
    exact length_filter_range_getD default
      (fun ch => decide (ch.toLower = c.toLower)) w.text
  · intro w i
    refine ⟨?_, rfl, rfl, rfl⟩
    simp only [charRect]
    ring

/-! ## Claim C6: rect invariant of the resolution methods -/

/-- The uniform character width of a word is nonnegative whenever the
word box is properly ordered horizontally. -/
theorem charWidth_nonneg (w : Word) (h : w.x0 ≤ w.x1) : 0 ≤ charWidthOf w := by
  unfold charWidthOf
  split
  · exact div_nonneg (by linarith) (Nat.cast_nonneg _)
  · linarith

def wrapW1 : Word := ⟨500, 0, 540, 10, ['j', 'a', 'n', 'e'], 0, 0, 3⟩
def wrapW2 : Word := ⟨50, 20, 80, 30, ['d', 'o', 'e'], 0, 1, 0⟩

/-- Counterexample to C6 as stated: a multi-word window that wraps to the
next line produces a rect whose left edge lies right of its right edge. -/
theorem c6_counterexample :
    ∃ r ∈ get_word_level_boundaries [wrapW1, wrapW2]
        ['j', 'a', 'n', 'e', ' ', 'd', 'o', 'e'], ¬(r.x0 ≤ r.x1) := by
  decide

/-- Claim C6 amended: on words with well-formed boxes, rects from the
exact-word, substring-within-word and single-character methods satisfy
`x0 ≤ x1 ∧ y0 ≤ y1`; every rect `get_word_level_boundaries` returns still
satisfies `y0 ≤ y1`, but multi-word rects may violate `x0 ≤ x1` when the
window's last word lies left of its first word. -/
theorem c6_rect_invariant (words : List Word) (target : List Char) (c : Char)
    (ms me : Nat) (hwf : ∀ w ∈ words, w.x0 ≤ w.x1 ∧ w.y0 ≤ w.y1) :
    (∀ r ∈ exactRects words target, r.x0 ≤ r.x1 ∧ r.y0 ≤ r.y1) ∧
    (∀ r ∈ substrRects words target, r.x0 ≤ r.x1 ∧ r.y0 ≤ r.y1) ∧
    (∀ r ∈ get_character_level_boundaries words c ms me,
        r.x0 ≤ r.x1 ∧ r.y0 ≤ r.y1) ∧
    (∀ r ∈ get_word_level_boundaries words target, r.y0 ≤ r.y1) := by
  have hexact : ∀ r ∈ exactRects words target, r.x0 ≤ r.x1 ∧ r.y0 ≤ r.y1 := by
    intro r hr
    obtain ⟨w, hw, hsome⟩ := List.mem_filterMap.mp hr
    split at hsome
    · obtain rfl : wordRect w = r := Option.some_injective _ hsome
      exact hwf w hw
    · exact Option.noConfusion hsome
  have hsubstr : ∀ r ∈ substrRects words target, r.x0 ≤ r.x1 ∧ r.y0 ≤ r.y1 := by
    intro r hr
    obtain ⟨w, hw, hsome⟩ := List.mem_filterMap.mp hr
    split at hsome
    case _ pos _ =>
      obtain rfl : substrRect w target pos = r := Option.some_injective _ hsome
      obtain ⟨hx, hy⟩ := hwf w hw
      refine ⟨?_, hy⟩
      show w.x0 + pos * charWidthOf w ≤
        w.x0 + pos * charWidthOf w + target.length * charWidthOf w
      have h0 := charWidth_nonneg w hx
      have h1 : (0:ℚ) ≤ target.length * charWidthOf w :=
        mul_nonneg (Nat.cast_nonneg _) h0
      linarith
    case _ => exact Option.noConfusion hsome
  have hchar : ∀ r ∈ get_character_level_boundaries words c ms me,
      r.x0 ≤ r.x1 ∧ r.y0 ≤ r.y1 := by
    intro r hr
    obtain ⟨w, hw, hrw⟩ := List.mem_flatMap.mp hr
    obtain ⟨i, _, hsome⟩ := List.mem_filterMap.mp hrw
    split at hsome
    · obtain rfl : charRect w i = r := Option.some_injective _ hsome
      obtain ⟨hx, hy⟩ := hwf w hw
      refine ⟨?_, hy⟩
      show w.x0 + i * charWidthOf w ≤ w.x0 + i * charWidthOf w + charWidthOf w
      have h0 := charWidth_nonneg w hx
      linarith
    · exact Option.noConfusion hsome
  have hmulti : ∀ r ∈ multiRects words target, r.y0 ≤ r.y1 := by
    intro r hr
    simp only [multiRects] at hr
    split at hr
    · obtain ⟨i, hi, hsome⟩ := List.mem_filterMap.mp hr
      rcases heq1 : words[i]? with _ | fw
      · simp [heq1] at hsome
      rcases heq2 : words[i + (splitWS target).length - 1]? with _ | lw
      · simp [heq1, heq2] at hsome
      simp only [heq1, heq2] at hsome
      by_cases hjoin :
          joinSpace (windowTexts words (splitWS target).length i) = lowerStr target
      · simp only [hjoin, if_pos] at hsome
        obtain rfl : combinedRect fw lw = r := Option.some_injective _ hsome
        have hfw := hwf fw (List.getElem?_mem heq1)
        have hlw := hwf lw (List.getElem?_mem heq2)
        show min fw.y0 lw.y0 ≤ max fw.y1 lw.y1
        calc min fw.y0 lw.y0 ≤ fw.y0 := min_le_left _ _
          _ ≤ fw.y1 := hfw.2
          _ ≤ max fw.y1 lw.y1 := le_max_left _ _
      · simp [hjoin] at hsome
    · cases hr
  refine ⟨hexact, hsubstr, hchar, ?_⟩
  intro r hr
  unfold get_word_level_boundaries at hr
  by_cases h1 : exactRects words target = []
  · rw [if_neg fun hc => hc h1] at hr
    by_cases h2 : substrRects words target = []
    · rw [if_neg fun hc => hc h2] at hr
      exact hmulti r hr
    · rw [if_pos h2] at hr
      exact (hsubstr r hr).2
  · rw [if_pos h1] at hr
    exact (hexact r hr).2

/-! ## Sorting lemmas: the stable sort is a permutation -/

theorem insertStable_perm (lt : α → α → Bool) (x : α) (l : List α) :
    (insertStable lt x l).Perm (x :: l) := by
  induction l with
  | nil => exact List.Perm.refl _
  | cons y ys ih =>
      unfold insertStable
      split
      · exact List.Perm.refl _
      · exact (ih.cons y).trans (List.Perm.swap x y ys)

theorem foldl_insertStable_perm (lt : α → α → Bool) (l acc : List α) :
    (l.foldl (fun a x => insertStable lt x a) acc).Perm (l ++ acc) := by
  induction l generalizing acc with
  | nil => exact List.Perm.refl _
  | cons x l ih =>
      have h1 : (l.foldl (fun a x => insertStable lt x a)
          (insertStable lt x acc)).Perm (l ++ insertStable lt x acc) := ih _
      have h2 : (l ++ insertStable lt x acc).Perm (l ++ (x :: acc)) :=
        List.Perm.append_left l (insertStable_perm lt x acc)
      have h3 : (l ++ (x :: acc)).Perm (x :: (l ++ acc)) := List.perm_middle
      exact (h1.trans h2).trans h3

theorem pySortBy_perm (lt : α → α → Bool) (l : List α) :
    (pySortBy lt l).Perm l := by
  simpa using foldl_insertStable_perm lt l []

/-! ## Coverage lemmas for the first-fit greedy merge -/

theorem covers_self (r : Rect) : r.covers r :=
  ⟨le_refl _, le_refl _, le_refl _, le_refl _⟩

theorem covers_trans {a b c : Rect} (h1 : a.covers b) (h2 : b.covers c) :
    a.covers c :=
  ⟨le_trans h1.1 h2.1, le_trans h1.2.1 h2.2.1,
   le_trans h2.2.2.1 h1.2.2.1, le_trans h2.2.2.2 h1.2.2.2⟩

theorem includeRect_covers_left (a b : Rect) : (a.includeRect b).covers a :=
  ⟨min_le_left _ _, min_le_left _ _, le_max_left _ _, le_max_left _ _⟩

theorem includeRect_covers_right (a b : Rect) : (a.includeRect b).covers b :=
  ⟨min_le_right _ _, min_le_right _ _, le_max_right _ _, le_max_right _ _⟩

theorem covers_toSet_subset {m r : Rect} (h : m.covers r) :
    r.toSet ⊆ m.toSet := by
  rintro ⟨px, py⟩ ⟨h1, h2, h3, h4⟩
  exact ⟨le_trans h.1 h1, le_trans h2 h.2.2.1, le_trans h.2.1 h3,
    le_trans h4 h.2.2.2⟩

theorem absorbFirst_growth (r : Rect) :
    ∀ (l l' : List Rect), absorbFirst r l = some l' →
      ∀ a ∈ l, ∃ m ∈ l', m.covers a := by
  intro l
  induction l with
  | nil => intro l' h; exact absurd h (by simp [absorbFirst])
  | cons x xs ih =>
      intro l' h a ha
      unfold absorbFirst at h
      split at h
      · obtain rfl : x.includeRect r :: xs = l' := Option.some_injective _ h
        rcases List.mem_cons.mp ha with rfl | hxs
        · exact ⟨a.includeRect r, List.mem_cons_self _ _,
            includeRect_covers_left a r⟩
        · exact ⟨a, List.mem_cons_of_mem _ hxs, covers_self a⟩
      · rcases heq : absorbFirst r xs with _ | rest
        · rw [heq] at h; exact absurd h (by simp)
        · rw [heq] at h
          obtain rfl : x :: rest = l' := Option.some_injective _ (by simpa using h)
          rcases List.mem_cons.mp ha with rfl | hxs
          · exact ⟨a, List.mem_cons_self _ _, covers_self a⟩
          · obtain ⟨m, hm, hc⟩ := ih rest heq a hxs
            exact ⟨m, List.mem_cons_of_mem _ hm, hc⟩

theorem absorbFirst_covers (r : Rect) :
    ∀ (l l' : List Rect), absorbFirst r l = some l' →
      ∃ m ∈ l', m.covers r := by
  intro l
  induction l with
  | nil => intro l' h; exact absurd h (by simp [absorbFirst])
  | cons x xs ih =>
      intro l' h
      unfold absorbFirst at h
      split at h
      · obtain rfl : x.includeRect r :: xs = l' := Option.some_injective _ h
        exact ⟨x.includeRect r, List.mem_cons_self _ _,
          includeRect_covers_right x r⟩
      · rcases heq : absorbFirst r xs with _ | rest
        · rw [heq] at h; exact absurd h (by simp)
        · rw [heq] at h
          obtain rfl : x :: rest = l' := Option.some_injective _ (by simpa using h)
          obtain ⟨m, hm, hc⟩ := ih rest heq
          exact ⟨m, List.mem_cons_of_mem _ hm, hc⟩

theorem absorbFirst_length (r : Rect) :
    ∀ (l l' : List Rect), absorbFirst r l = some l' → l'.length = l.length := by
  intro l
  induction l with
  | nil => intro l' h; exact absurd h (by simp [absorbFirst])
  | cons x xs ih =>
      intro l' h
      unfold absorbFirst at h
      split at h
      · obtain rfl : x.includeRect r :: xs = l' := Option.some_injective _ h
        simp
      · rcases heq : absorbFirst r xs with _ | rest
        · rw [heq] at h; exact absurd h (by simp)
        · rw [heq] at h
          obtain rfl : x :: rest = l' := Option.some_injective _ (by simpa using h)
          simp [ih rest heq]

theorem mergeStep_growth (regions : List Rect) (r : Rect) :
    ∀ a ∈ regions, ∃ m ∈ mergeStep regions r, m.covers a := by
  intro a ha
  unfold mergeStep
  rcases heq : absorbFirst r regions with _ | merged
  · exact ⟨a, List.mem_append_left _ ha, covers_self a⟩
  · exact absorbFirst_growth r regions merged heq a ha

theorem mergeStep_covers (regions : List Rect) (r : Rect) :
    ∃ m ∈ mergeStep regions r, m.covers r := by
  unfold mergeStep
  rcases heq : absorbFirst r regions with _ | merged
  · exact ⟨r, List.mem_append_right _ (List.mem_singleton.mpr rfl), covers_self r⟩
  · exact absorbFirst_covers r regions merged heq

theorem mergeStep_length (regions : List Rect) (r : Rect) :
    (mergeStep regions r).length ≤ regions.length + 1 := by
  unfold mergeStep
  rcases heq : absorbFirst r regions with _ | merged
  · simp
  · rw [absorbFirst_length r regions merged heq]
    omega

theorem foldl_mergeStep_growth :
    ∀ (l : List Rect) (acc : List Rect) (a : Rect),
      (∃ m ∈ acc, m.covers a) →
      ∃ m ∈ l.foldl mergeStep acc, m.covers a := by
  intro l
  induction l with
  | nil => exact fun acc a h => h
  | cons r l ih =>
      rintro acc a ⟨m, hm, hc⟩
      obtain ⟨m2, hm2, hc2⟩ := mergeStep_growth acc r m hm
      exact ih (mergeStep acc r) a ⟨m2, hm2, covers_trans hc2 hc⟩

theorem foldl_mergeStep_mem :
    ∀ (l : List Rect) (acc : List Rect) (r : Rect), r ∈ l →
      ∃ m ∈ l.foldl mergeStep acc, m.covers r := by
  intro l
  induction l with
  | nil => intro acc r h; exact absurd h (List.not_mem_nil r)
  | cons x xs ih =>
      intro acc r hr
      rcases List.mem_cons.mp hr with rfl | hxs
      · exact foldl_mergeStep_growth xs (mergeStep acc r) r
          (mergeStep_covers acc r)
      · exact ih (mergeStep acc x) r hxs

theorem foldl_mergeStep_length :
    ∀ (l : List Rect) (acc : List Rect),
      (l.foldl mergeStep acc).length ≤ acc.length + l.length := by
  intro l
  induction l with
  | nil => intro acc; simp
  | cons r l ih =>
      intro acc
      calc (l.foldl mergeStep (mergeStep acc r)).length
          ≤ (mergeStep acc r).length + l.length := ih _
        _ ≤ acc.length + 1 + l.length :=
            Nat.add_le_add_right (mergeStep_length acc r) _
        _ = acc.length + (r :: l).length := by simp; omega

theorem mergeAll_covers (rects : List Rect) (r : Rect) (h : r ∈ rects) :
    ∃ m ∈ mergeAll rects, m.covers r :=
  foldl_mergeStep_mem (pySortBy rectKeyLt rects) [] r
    ((pySortBy_perm rectKeyLt rects).mem_iff.mpr h)

/-! ## The collection loop, characterised -/

theorem collectRedactions_foldl (l : List Rect) :
    ∀ acc : List Rect × Nat,
      l.foldl (fun acc r =>
          if passesThreshold r then (acc.1 ++ [padRect r], acc.2 + 1) else acc) acc
        = (acc.1 ++ (l.filter passesThreshold).map padRect,
           acc.2 + (l.filter passesThreshold).length) := by
  induction l with
  | nil => intro acc; simp
  | cons r l ih =>
      intro acc
      rw [List.foldl_cons, List.filter_cons]
      by_cases h : passesThreshold r = true
      · rw [if_pos h, ih, if_pos h]
        simp
        omega
      · rw [if_neg h, ih, if_neg h]

theorem collectRedactions_eq (l : List Rect) :
    collectRedactions l
      = ((l.filter passesThreshold).map padRect,
         (l.filter passesThreshold).length) := by
  unfold collectRedactions
  rw [collectRedactions_foldl]
  simp

theorem passesThreshold_true {r : Rect} (hw : (1:ℚ)/10 < r.width)
    (hh : (1:ℚ)/10 < r.height) : passesThreshold r = true := by
  show (decide (r.width > 1/10) && decide (r.height > 1/10)) = true
  rw [decide_eq_true (show r.width > 1/10 from hw),
    decide_eq_true (show r.height > 1/10 from hh)]
  rfl

/-! ## Claim C4: merge coverage -/

/-- Claim C4: every input rect passing the minimal-size threshold is,
after padding, fully contained in the union of the merged regions the
first-fit greedy merge produces. -/
theorem c4_merge_coverage (matchRects : List Rect) (r : Rect)
    (hr : r ∈ matchRects) (hw : (1:ℚ)/10 < r.width) (hh : (1:ℚ)/10 < r.height) :
    (padRect r).toSet ⊆ {p | ∃ m ∈ mergedRedactions matchRects, p ∈ m.toSet} := by
  have hth : passesThreshold r = true := passesThreshold_true hw hh
  have hmem : padRect r ∈ (collectRedactions matchRects).1 := by
    rw [collectRedactions_eq]
    exact List.mem_map_of_mem _ (List.mem_filter.mpr ⟨hr, hth⟩)
  obtain ⟨m, hm, hc⟩ := mergeAll_covers _ _ hmem
  intro p hp
  exact ⟨m, hm, covers_toSet_subset hc hp⟩

def c4r : Rect := ⟨0, 0, 10, 10⟩

/-- Witness for C4 at a concrete rect list. -/
theorem c4_merge_coverage_witness :
    (padRect c4r).toSet ⊆ {p | ∃ m ∈ mergedRedactions [c4r], p ∈ m.toSet} :=
  c4_merge_coverage [c4r] c4r (List.mem_singleton.mpr rfl)
    (by norm_num [Rect.width, c4r]) (by norm_num [Rect.height, c4r])

/-! ## Duplicate-rect merge computation (shared by C5 and C7) -/

theorem width_pos_of_threshold {r : Rect} (hw : (1:ℚ)/10 < r.width) :
    r.x0 < r.x1 := by
  rcases lt_max_iff.mp hw with h | h
  · linarith
  · norm_num at h

theorem height_pos_of_threshold {r : Rect} (hh : (1:ℚ)/10 < r.height) :
    r.y0 < r.y1 := by
  rcases lt_max_iff.mp hh with h | h
  · linarith
  · norm_num at h

theorem padRect_intersects_self {r : Rect} (hw : (1:ℚ)/10 < r.width)
    (hh : (1:ℚ)/10 < r.height) :
    (padRect r).intersects (padRect r) = true := by
  have hx := width_pos_of_threshold hw
  have hy := height_pos_of_threshold hh
  have h3 : (padRect r).x0 < (padRect r).x1 := by
    show r.x0 - 2 < r.x1 + 2
    linarith
  have h4 : (padRect r).y0 < (padRect r).y1 := by
    show r.y0 - 2 < r.y1 + 2
    linarith
  have h1 : ¬((padRect r).x1 ≤ (padRect r).x0) := not_le.mpr h3
  have h2 : ¬((padRect r).y1 ≤ (padRect r).y0) := not_le.mpr h4
  simp [Rect.intersects, Rect.isEmptyR, h1, h2, h3, h4]

theorem includeRect_self (r : Rect) : r.includeRect r = r := by
  simp [Rect.includeRect]

theorem mergedRedactions_dup (r : Rect) (hw : (1:ℚ)/10 < r.width)
    (hh : (1:ℚ)/10 < r.height) :
    mergedRedactions [r, r] = [padRect r] ∧
    mergedRedactions [r] = [padRect r] := by
  have hth : passesThreshold r = true := passesThreshold_true hw hh
  have hlt : rectKeyLt (padRect r) (padRect r) = false := by
    simp [rectKeyLt]
  have hint := padRect_intersects_self hw hh
  have hfilter2 : List.filter passesThreshold [r, r] = [r, r] := by
    simp [List.filter_cons, hth]
  have hfilter1 : List.filter passesThreshold [r] = [r] := by
    simp [List.filter_cons, hth]
  have hsort2 : pySortBy rectKeyLt [padRect r, padRect r]
      = [padRect r, padRect r] := by
    show insertStable rectKeyLt (padRect r) [padRect r]
      = [padRect r, padRect r]
    simp only [insertStable, hlt]
    simp
  have habs : absorbFirst (padRect r) [padRect r]
      = some [(padRect r).includeRect (padRect r)] := by
    unfold absorbFirst
    rw [hint]
    simp
  have hstep0 : mergeStep [] (padRect r) = [padRect r] := rfl
  have hstep1 : mergeStep [padRect r] (padRect r)
      = [(padRect r).includeRect (padRect r)] := by
    unfold mergeStep
    rw [habs]
  constructor
  · rw [mergedRedactions, collectRedactions_eq]
    show mergeAll (List.map padRect (List.filter passesThreshold [r, r])) = _
    rw [hfilter2]
    show (pySortBy rectKeyLt [padRect r, padRect r]).foldl mergeStep [] = _
    rw [hsort2]
    show mergeStep (mergeStep [] (padRect r)) (padRect r) = _
    rw [hstep0, hstep1, includeRect_self]
  · rw [mergedRedactions, collectRedactions_eq]
    show mergeAll (List.map padRect (List.filter passesThreshold [r])) = _
    rw [hfilter1]
    show (pySortBy rectKeyLt [padRect r]).foldl mergeStep [] = _
    show mergeStep [] (padRect r) = _
    exact hstep0

/-! ## Claim C5: the returned count -/

def c5r : Rect := ⟨0, 0, 10, 10⟩

/-- Counterexample to C5 as stated: two overlapping (here identical)
surviving rects produce a returned count of 2 but only one applied
merged region. -/
theorem c5_counterexample :
    apply_ultra_precise_redaction [c5r, c5r] = 2 ∧
    (mergedRedactions [c5r, c5r]).length = 1 := by
  constructor
  · rw [apply_ultra_precise_redaction, collectRedactions_eq]
    show (List.filter passesThreshold [c5r, c5r]).length = 2
    rw [show List.filter passesThreshold [c5r, c5r] = [c5r, c5r] from by
      simp [List.filter_cons,
        passesThreshold_true (r := c5r) (by norm_num [Rect.width, c5r])
          (by norm_num [Rect.height, c5r])]]
    rfl
  · rw [(mergedRedactions_dup c5r (by norm_num [Rect.width, c5r])
      (by norm_num [Rect.height, c5r])).1]
    rfl

/-- Claim C5 amended: the value `apply_ultra_precise_redaction` returns
is the number of input match rects that pass the minimal-size threshold,
counted before merging; the number of merged regions actually applied is
at most that count (and can be smaller). -/
theorem c5_count_counts_candidates (matchRects : List Rect) :
    apply_ultra_precise_redaction matchRects
        = (matchRects.filter passesThreshold).length ∧
    (mergedRedactions matchRects).length
        ≤ apply_ultra_precise_redaction matchRects := by
  have h1 : apply_ultra_precise_redaction matchRects
      = (matchRects.filter passesThreshold).length := by
    rw [apply_ultra_precise_redaction, collectRedactions_eq]
  refine ⟨h1, ?_⟩
  rw [h1, mergedRedactions, mergeAll]
  calc ((pySortBy rectKeyLt (collectRedactions matchRects).1).foldl
        mergeStep []).length
      ≤ ([] : List Rect).length
        + (pySortBy rectKeyLt (collectRedactions matchRects).1).length :=
        foldl_mergeStep_length _ _
    _ = (collectRedactions matchRects).1.length := by
        simp [(pySortBy_perm rectKeyLt _).length_eq]
    _ = (matchRects.filter passesThreshold).length := by
        rw [collectRedactions_eq]
        simp

/-! ## Claim C7: duplicate idempotence of the merge -/

/-- Claim C7: for a single rect above the minimal-size threshold, merging
the list containing it twice yields as many merged regions as merging the
list containing it once. -/
theorem c7_merge_idempotent (r : Rect) (hw : (1:ℚ)/10 < r.width)
    (hh : (1:ℚ)/10 < r.height) :
    (mergedRedactions [r, r]).length = (mergedRedactions [r]).length := by
  obtain ⟨h1, h2⟩ := mergedRedactions_dup r hw hh
  rw [h1, h2]

def c7r : Rect := ⟨3, 4, 20, 9⟩

/-- Witness for C7 at a concrete rect. -/
theorem c7_merge_idempotent_witness :
    (mergedRedactions [c7r, c7r]).length = (mergedRedactions [c7r]).length :=
  c7_merge_idempotent c7r (by norm_num [Rect.width, c7r])
    (by norm_num [Rect.height, c7r])

/-! ## Claim C2: multi-word windows -/

/-- Default word used with `List.getD` when naming the first and last
word of an in-range window. -/
def defaultWord : Word := ⟨0, 0, 0, 0, [], 0, 0, 0⟩

def jdW1 : Word := ⟨0, 0, 10, 10, ['j', 'a', 'n', 'e'], 0, 0, 0⟩
def jdW2 : Word := ⟨12, 0, 20, 10, ['d', 'o', 'e'], 0, 0, 1⟩
def jdW3 : Word := ⟨22, 0, 32, 10, ['j', 'a', 'n', 'e'], 0, 0, 2⟩
def jdW4 : Word := ⟨34, 0, 42, 10, ['d', 'o', 'e'], 0, 0, 3⟩

/-- Counterexample to C2 as stated: with two disjoint matching windows
the multi-word method returns two rects, not exactly one from the first
window (the loop has no break). -/
theorem c2_counterexample :
    (get_word_level_boundaries [jdW1, jdW2, jdW3, jdW4]
      ['j', 'a', 'n', 'e', ' ', 'd', 'o', 'e']).length = 2 := by
  decide

/-- Claim C2 amended: when neither exact word equality nor
substring-within-word yields a rect and the target splits into more than
one token, `get_word_level_boundaries` returns one combined rect per
matching window — every matching window in order, not only the first —
each bounded by the first word's left edge, the last word's right edge,
the minimum of their top edges and the maximum of their bottom edges;
in particular it returns zero rects when no window matches. -/
theorem c2_multiword_all_windows (words : List Word) (target : List Char)
    (h1 : exactRects words target = []) (h2 : substrRects words target = [])
    (hn : 1 < (splitWS target).length) :
    get_word_level_boundaries words target
      = ((windowStarts words (splitWS target).length).filter fun i =>
          decide (joinSpace (windowTexts words (splitWS target).length i)
            = lowerStr target)).map
          (fun i => combinedRect (words.getD i defaultWord)
            (words.getD (i + (splitWS target).length - 1) defaultWord)) := by
  have hgw : get_word_level_boundaries words target = multiRects words target := by
    unfold get_word_level_boundaries
    rw [if_neg fun hc => hc h1, if_neg fun hc => hc h2]
  rw [hgw]
  simp only [multiRects]
  rw [if_pos hn]
  have hcong : ∀ i ∈ windowStarts words (splitWS target).length,
      (match words[i]?, words[i + (splitWS target).length - 1]? with
        | some fw, some lw =>
            if joinSpace (windowTexts words (splitWS target).length i)
                = lowerStr target then
              some (combinedRect fw lw)
            else none
        | _, _ => none)
      = (if joinSpace (windowTexts words (splitWS target).length i)
            = lowerStr target then
          some (combinedRect (words.getD i defaultWord)
            (words.getD (i + (splitWS target).length - 1) defaultWord))
        else none) := by
    intro i hi
    have hb : i < words.length ∧
        i + (splitWS target).length - 1 < words.length := by
      by_cases hle : (splitWS target).length ≤ words.length
      · rw [windowStarts, if_pos hle] at hi
        have := List.mem_range.mp hi
        omega
      · rw [windowStarts, if_neg hle] at hi
        exact absurd hi (List.not_mem_nil _)
    have e1 : words[i]? = some (words.getD i defaultWord) := by
      rw [List.getElem?_eq_getElem hb.1, List.getD_eq_getElem?_getD,
        List.getElem?_eq_getElem hb.1]
      rfl
    have e2 : words[i + (splitWS target).length - 1]?
        = some (words.getD (i + (splitWS target).length - 1) defaultWord) := by
      rw [List.getElem?_eq_getElem hb.2, List.getD_eq_getElem?_getD,
        List.getElem?_eq_getElem hb.2]
      rfl
    rw [e1, e2]
  rw [List.filterMap_congr hcong]
  exact filterMap_ite_eq_filter_map _ _ _

/-- Witness for C2 (amended) at the concrete repeated-window page. -/
theorem c2_multiword_all_windows_witness :
    get_word_level_boundaries [jdW1, jdW2, jdW3, jdW4]
        ['j', 'a', 'n', 'e', ' ', 'd', 'o', 'e']
      = ((windowStarts [jdW1, jdW2, jdW3, jdW4]
          (splitWS ['j', 'a', 'n', 'e', ' ', 'd', 'o', 'e']).length).filter fun i =>
          decide (joinSpace (windowTexts [jdW1, jdW2, jdW3, jdW4]
              (splitWS ['j', 'a', 'n', 'e', ' ', 'd', 'o', 'e']).length i)
            = lowerStr ['j', 'a', 'n', 'e', ' ', 'd', 'o', 'e'])).map
          (fun i => combinedRect ([jdW1, jdW2, jdW3, jdW4].getD i defaultWord)
            ([jdW1, jdW2, jdW3, jdW4].getD
              (i + (splitWS ['j', 'a', 'n', 'e', ' ', 'd', 'o', 'e']).length - 1)
              defaultWord)) :=
  c2_multiword_all_windows [jdW1, jdW2, jdW3, jdW4]
    ['j', 'a', 'n', 'e', ' ', 'd', 'o', 'e'] (by decide) (by decide) (by decide)

def c6w : Word := ⟨0, 0, 4, 2, ['a', 'b'], 0, 0, 0⟩

/-- Witness for C6 (amended) at a concrete one-word page. -/
theorem c6_rect_invariant_witness :
    (∀ r ∈ exactRects [c6w] ['a', 'b'], r.x0 ≤ r.x1 ∧ r.y0 ≤ r.y1) ∧
    (∀ r ∈ substrRects [c6w] ['a', 'b'], r.x0 ≤ r.x1 ∧ r.y0 ≤ r.y1) ∧
    (∀ r ∈ get_character_level_boundaries [c6w] 'b' 0 0,
        r.x0 ≤ r.x1 ∧ r.y0 ≤ r.y1) ∧
    (∀ r ∈ get_word_level_boundaries [c6w] ['a', 'b'], r.y0 ≤ r.y1) :=
  c6_rect_invariant [c6w] ['a', 'b'] 'b' 0 0 (by decide)

/-! ## Claim C9: the hard-coded IGNORECASE flag -/

def c9Word : Word := ⟨10, 10, 60, 20, ['h', 'e', 'l', 'l', 'o'], 0, 0, 0⟩

/-- Claim C9: `find_ultra_precise_matches` passes
`re.MULTILINE | re.IGNORECASE` unconditionally, so the uppercase-only
class `[A-Z]{5}` matches the all-lowercase page text `hello` and yields
a redaction rect — although the same pattern matched case-sensitively
(no forced flags) finds nothing. -/
theorem c9_ignorecase_forced :
    find_ultra_precise_matches [c9Word] ['h', 'e', 'l', 'l', 'o']
        (RX.clsRep 'A' 'Z' 5)
      = [⟨⟨10, 10, 60, 20⟩, ['h', 'e', 'l', 'l', 'o']⟩] ∧
    pyFinditer (RX.clsRep 'A' 'Z' 5) ⟨false, false⟩ ['h', 'e', 'l', 'l', 'o']
      = [] := by
  decide

/-! ## Claim C8: detector unavailable -/

/-- Counterexample to C8 as stated: with no model loaded,
`detect_entities` returns the plain empty entity list — exactly the same
value an available model finding nothing returns, so the return value
carries no "unavailable" signal. -/
theorem c8_counterexample :
    detect_entities none (35/100) ['J', 'o', 'h', 'n'] [] = [] ∧
    detect_entities (some fun _ => []) (35/100) ['J', 'o', 'h', 'n'] []
      = detect_entities none (35/100) ['J', 'o', 'h', 'n'] [] :=
  ⟨rfl, rfl⟩

/-- Claim C8 amended: when no model is loaded, `detect_entities` returns
the empty entity list for every input — indistinguishable, by return
value, from an available model that finds nothing; unavailability is
signalled only by the separate `is_available` query (and a GUI error
dialog side effect). -/
theorem c8_unavailable_returns_empty (thr : ℚ) (text : List Char)
    (sel : List (List Char)) :
    detect_entities none thr text sel = [] ∧
    detect_entities none thr text sel
      = detect_entities (some fun _ => []) thr text sel ∧
    is_available false = false := by
  refine ⟨rfl, ?_, rfl⟩
  show ([] : List PyEntity)
      = if stripStr text = [] then ([] : List PyEntity)
        else if sel ≠ [] then
          List.filter (fun e => decide (e.entity ∈ sel) && decide (thr ≤ e.score))
            ([] : List PyEntity)
        else ([] : List PyEntity)
  by_cases hs : stripStr text = []
  · rw [if_pos hs]
  · rw [if_neg hs]
    by_cases hsel : sel ≠ []
    · rw [if_pos hsel]
      rfl
    · rw [if_neg hsel]

/-! ## Claim C10: the masking frame property -/

theorem spliceMask_spec (acc : List Char) (s e : Nat) (m : List Char)
    (hse : s ≤ e) (he : e ≤ acc.length) (hm : m.length = e - s) :
    (spliceMask acc (s, e, m)).length = acc.length ∧
    ∀ i : Nat, (spliceMask acc (s, e, m))[i]?
      = if i < s then acc[i]? else if i < e then m[i - s]? else acc[i]? := by
  have htk : (acc.take s).length = s := by
    rw [List.length_take]
    omega
  constructor
  · show (acc.take s ++ m ++ acc.drop e).length = acc.length
    rw [List.append_assoc, List.length_append, List.length_append, htk, hm,
      List.length_drop]
    omega
  · intro i
    show (acc.take s ++ m ++ acc.drop e)[i]? = _
    rw [List.append_assoc, List.getElem?_append]
    by_cases h1 : i < s
    · rw [if_pos (by omega : i < (acc.take s).length),
        if_pos h1, List.getElem?_take, if_pos h1]
    · rw [if_neg (by omega : ¬i < (acc.take s).length), List.getElem?_append]
      by_cases h2 : i < e
      · rw [if_pos (by rw [htk, hm]; omega : i - (acc.take s).length < m.length),
          if_neg h1, if_pos h2, htk]
      · rw [if_neg (by rw [htk, hm]; omega : ¬i - (acc.take s).length < m.length),
          if_neg h1, if_neg h2, List.getElem?_drop]
        congr 1
        rw [htk, hm]
        omega

theorem foldl_spliceMask_fullMask :
    ∀ (ms : List (Nat × Nat × List Char)) (acc : List Char),
      (∀ mk ∈ ms, mk.1 < mk.2.1 ∧ mk.2.1 ≤ acc.length ∧
        mk.2.2.length = mk.2.1 - mk.1 ∧ ∀ ch ∈ mk.2.2, ch = '*') →
      ms.Pairwise (fun a b => a.2.1 ≤ b.1 ∨ b.2.1 ≤ a.1) →
      (ms.foldl spliceMask acc).length = acc.length ∧
      (∀ i, (∀ mk ∈ ms, ¬(mk.1 ≤ i ∧ i < mk.2.1)) →
        (ms.foldl spliceMask acc)[i]? = acc[i]?) ∧
      (∀ i, (∃ mk ∈ ms, mk.1 ≤ i ∧ i < mk.2.1) →
        (ms.foldl spliceMask acc)[i]? = some ('*' : Char)) := by
  intro ms
  induction ms with
  | nil =>
      intro acc _ _
      exact ⟨rfl, fun i _ => rfl, fun i h => absurd h (by simp)⟩
  | cons mk ms ih =>
      intro acc hval hpw
      obtain ⟨s, e, m⟩ := mk
      obtain ⟨hv1, hv2, hv3, hv4⟩ := hval _ (List.mem_cons_self _ _)
      obtain ⟨hsp1, hsp2⟩ :=
        spliceMask_spec acc s e m (le_of_lt hv1) hv2 hv3
      obtain ⟨hdisj, hpwrest⟩ := List.pairwise_cons.mp hpw
      have hrest_val : ∀ mk2 ∈ ms, mk2.1 < mk2.2.1 ∧
          mk2.2.1 ≤ (spliceMask acc (s, e, m)).length ∧
          mk2.2.2.length = mk2.2.1 - mk2.1 ∧ ∀ ch ∈ mk2.2.2, ch = '*' := by
        intro mk2 hm2
        obtain ⟨a1, a2, a3, a4⟩ := hval mk2 (List.mem_cons_of_mem _ hm2)
        exact ⟨a1, by rw [hsp1]; exact a2, a3, a4⟩
      obtain ⟨ihlen, ihout, ihin⟩ :=
        ih (spliceMask acc (s, e, m)) hrest_val hpwrest
      refine ⟨?_, ?_, ?_⟩
      · rw [List.foldl_cons, ihlen, hsp1]
      · intro i hi
        rw [List.foldl_cons,
          ihout i fun mk2 hm2 => hi mk2 (List.mem_cons_of_mem _ hm2),
          hsp2 i]
        have hnot : ¬(s ≤ i ∧ i < e) := hi (s, e, m) (List.mem_cons_self _ _)
        by_cases h1 : i < s
        · rw [if_pos h1]
        · rw [if_neg h1, if_neg (by omega)]
      · intro i hex
        rw [List.foldl_cons]
        obtain ⟨mk2, hmk2, hcov⟩ := hex
        rcases List.mem_cons.mp hmk2 with heq | hm2
        · subst heq
          have hc1 : s ≤ i := hcov.1
          have hc2 : i < e := hcov.2
          rw [ihout i ?_, hsp2 i, if_neg (by omega), if_pos hc2]
          · have hidx : i - s < m.length := by rw [hv3]; omega
            rw [List.getElem?_eq_getElem hidx]
            exact congrArg some (hv4 _ (List.getElem_mem hidx))
          · intro mk2 hm2
            rintro ⟨hb1, hb2⟩
            rcases hdisj mk2 hm2 with hd | hd
            · have hd2 : e ≤ mk2.1 := hd
              omega
            · have hd2 : mk2.2.1 ≤ s := hd
              omega
        · exact ihin i ⟨mk2, hm2, hcov⟩

/-- Claim C10: with valid, pairwise non-overlapping entity spans and the
full-mask style, `mask_entities` keeps the text length, keeps every
character outside the spans unchanged at its position, and rewrites
exactly the span positions to `'*'`. -/
theorem c10_mask_frame (text : List Char) (entities : List PyEntity)
    (hval : ∀ en ∈ entities, en.start < en.stop ∧ en.stop ≤ text.length)
    (hdisj : entities.Pairwise fun a b => a.stop ≤ b.start ∨ b.stop ≤ a.start) :
    (mask_entities text entities Style.fullMask).length = text.length ∧
    (∀ i, (∀ en ∈ entities, ¬(en.start ≤ i ∧ i < en.stop)) →
      (mask_entities text entities Style.fullMask)[i]? = text[i]?) ∧
    (∀ i, (∃ en ∈ entities, en.start ≤ i ∧ i < en.stop) →
      (mask_entities text entities Style.fullMask)[i]? = some ('*' : Char)) := by
  by_cases hent : entities = []
  · subst hent
    rw [show mask_entities text [] Style.fullMask = text from rfl]
    exact ⟨rfl, fun i _ => rfl, fun i h => absurd h (by simp)⟩
  · have hmasks : buildMasks text entities Style.fullMask
        = entities.map fun en =>
            (en.start, en.stop, List.replicate (en.stop - en.start) '*') := by
      have hcong : ∀ en ∈ entities,
          (if en.start < text.length ∧ 0 < en.stop ∧ en.stop ≤ text.length
              ∧ en.start < en.stop
           then some (en.start, en.stop,
             maskFor Style.fullMask en.entity
               ((text.drop en.start).take (en.stop - en.start)))
           else none)
          = some (en.start, en.stop,
              List.replicate (en.stop - en.start) ('*' : Char)) := by
        intro en hen
        obtain ⟨ha, hb⟩ := hval en hen
        rw [if_pos ⟨by omega, by omega, hb, ha⟩]
        have hlen2 : ((text.drop en.start).take (en.stop - en.start)).length
            = en.stop - en.start := by
          rw [List.length_take, List.length_drop]
          omega
        show some (en.start, en.stop,
          List.replicate
            ((text.drop en.start).take (en.stop - en.start)).length
            ('*' : Char)) = _
        rw [hlen2]
      unfold buildMasks
      rw [List.filterMap_congr hcong]
      exact congrFun (List.filterMap_eq_map _) entities
    have hmne : buildMasks text entities Style.fullMask ≠ [] := by
      rw [hmasks]
      intro h
      exact hent (by simpa using h)
    have hout_eq : mask_entities text entities Style.fullMask
        = (pySortBy (fun a b => decide (b.1 < a.1))
            (buildMasks text entities Style.fullMask)).foldl spliceMask text := by
      unfold mask_entities
      rw [if_neg hent, if_neg hmne]
    have hperm : (pySortBy (fun a b => decide (b.1 < a.1))
        (buildMasks text entities Style.fullMask)).Perm
        (buildMasks text entities Style.fullMask) := pySortBy_perm _ _
    have hval2 : ∀ mk ∈ pySortBy (fun a b => decide (b.1 < a.1))
        (buildMasks text entities Style.fullMask),
        mk.1 < mk.2.1 ∧ mk.2.1 ≤ text.length ∧
        mk.2.2.length = mk.2.1 - mk.1 ∧ ∀ ch ∈ mk.2.2, ch = '*' := by
      intro mk hmk
      have hmem : mk ∈ buildMasks text entities Style.fullMask :=
        hperm.mem_iff.mp hmk
      rw [hmasks] at hmem
      obtain ⟨en, hen, heq⟩ := List.mem_map.mp hmem
      obtain ⟨ha, hb⟩ := hval en hen
      subst heq
      exact ⟨ha, hb, by simp, fun ch hch => List.eq_of_mem_replicate hch⟩
    have hpw2 : (pySortBy (fun a b => decide (b.1 < a.1))
        (buildMasks text entities Style.fullMask)).Pairwise
        (fun a b => a.2.1 ≤ b.1 ∨ b.2.1 ≤ a.1) := by
      have hsymm : ∀ {x y : Nat × Nat × List Char},
          (x.2.1 ≤ y.1 ∨ y.2.1 ≤ x.1) → (y.2.1 ≤ x.1 ∨ x.2.1 ≤ y.1) :=
        fun h => h.elim Or.inr Or.inl
      refine (List.Perm.pairwise_iff hsymm hperm).mpr ?_
      rw [hmasks, List.pairwise_map]
      exact hdisj
    obtain ⟨hL, hOut, hIn⟩ := foldl_spliceMask_fullMask
      (pySortBy (fun a b => decide (b.1 < a.1))
        (buildMasks text entities Style.fullMask)) text hval2 hpw2
    have hspans : ∀ i : Nat,
        (∃ mk ∈ pySortBy (fun a b => decide (b.1 < a.1))
            (buildMasks text entities Style.fullMask),
          mk.1 ≤ i ∧ i < mk.2.1)
        ↔ (∃ en ∈ entities, en.start ≤ i ∧ i < en.stop) := by
      intro i
      constructor
      · rintro ⟨mk, hmk, hc⟩
        have hmem := hperm.mem_iff.mp hmk
        rw [hmasks] at hmem
        obtain ⟨en, hen, heq⟩ := List.mem_map.mp hmem
        subst heq
        exact ⟨en, hen, hc⟩
      · rintro ⟨en, hen, hc⟩
        refine ⟨(en.start, en.stop, List.replicate (en.stop - en.start) '*'),
          hperm.mem_iff.mpr ?_, hc⟩
        rw [hmasks]
        exact List.mem_map_of_mem _ hen
    rw [hout_eq]
    refine ⟨hL, ?_, ?_⟩
    · intro i hi
      refine hOut i ?_
      intro mk hmk
      rintro ⟨hc1, hc2⟩
      obtain ⟨en, hen, hc⟩ := (hspans i).mp ⟨mk, hmk, hc1, hc2⟩
      exact hi en hen hc
    · intro i hex
      exact hIn i ((hspans i).mpr hex)

def c10Text : List Char := ['J', 'o', 'h', 'n', ' ', 'i', 's', ' ', 'o', 'k']

def c10Ent : PyEntity := ⟨['P', 'E', 'R'], 0, 4, ['J', 'o', 'h', 'n'], 1⟩

/-- Witness for C10 at a concrete text and entity. -/
theorem c10_mask_frame_witness :
    (mask_entities c10Text [c10Ent] Style.fullMask).length = c10Text.length ∧
    (∀ i, (∀ en ∈ [c10Ent], ¬(en.start ≤ i ∧ i < en.stop)) →
      (mask_entities c10Text [c10Ent] Style.fullMask)[i]? = c10Text[i]?) ∧
    (∀ i, (∃ en ∈ [c10Ent], en.start ≤ i ∧ i < en.stop) →
      (mask_entities c10Text [c10Ent] Style.fullMask)[i]? = some ('*' : Char)) :=
  c10_mask_frame c10Text [c10Ent] (by decide) (by decide)
